import Mathlib

/-!
# matrix_op: fixed-size row-major matrix primitives

A shallow embedding of `include/matrix_op/matrix_operations.hpp` and
`include/matrix_op/row_operations.hpp`.

* `Real_T` is an arbitrary commutative ring `R` (exact arithmetic).
* A C array `Real_T[n]` is a `List R` whose length is `n`; the length is a
  hypothesis of the theorems, as it is part of the C++ type.
* Every array access is checked: reading or writing outside the buffer (undefined
  behaviour in C++) makes the whole computation `none`.
* `for (size_t i = 0; i < n; ++i) body` is `forLoop n body`.
-/

namespace matrix_op

variable {R : Type}

/-- Checked read `buf[i]`. -/
def rd (buf : List R) (i : Nat) : Option R :=
  buf[i]?

/-- Checked write `buf[i] = v`. -/
def wr (buf : List R) (i : Nat) (v : R) : Option (List R) :=
  if i < buf.length then some (buf.set i v) else none

/-- The loop `for (size_t i = 0; i < n; ++i) body`, threading the state `s`;
it fails as soon as one iteration fails. -/
def forLoop {σ : Type} : Nat → (Nat → σ → Option σ) → σ → Option σ
  | 0, _, s => some s
  | n + 1, body, s => (forLoop n body s).bind (body n)

/-- Embedding of `transpose<N_ROW, M_COL>(A, A_tr)` of matrix_operations.hpp. -/
def transpose (N_ROW M_COL : Nat) (A A_tr : List R) : Option (List R) :=
  forLoop N_ROW (fun i A_tr =>
    forLoop M_COL (fun j A_tr =>
      (rd A (i * M_COL + j)).bind (fun a => wr A_tr (j * N_ROW + i) a)) A_tr) A_tr

/-- Embedding of `multiply<N_ROW_A, M_COL_A, M_COL_B>(A, B, mul)` of matrix_operations.hpp:
the zeroing loop over `N_ROW_A * M_COL_B` slots, then the triple loop whose
accumulation writes `mul[i * M_COL_A + j]`. -/
def multiply [CommRing R] (N_ROW_A M_COL_A M_COL_B : Nat) (A B mul : List R) :
    Option (List R) :=
  (forLoop (N_ROW_A * M_COL_B) (fun i mul => wr mul i 0) mul).bind (fun mul =>
    forLoop N_ROW_A (fun i mul =>
      forLoop M_COL_A (fun k mul =>
        forLoop M_COL_B (fun j mul =>
          (rd A (i * M_COL_A + k)).bind (fun a =>
          (rd B (k * M_COL_B + j)).bind (fun b =>
          (rd mul (i * M_COL_A + j)).bind (fun m =>
            wr mul (i * M_COL_A + j) (m + a * b))))) mul) mul) mul)

/-- Modelled from the spec: `select_row` is not in the available sources (only its
call in `right_multiply` is). Spec: "returns a read-only view of length `cols`
aliasing the matrix's backing storage starting at `row_index * cols`. Caller
guarantees `row_index < rows`; out-of-range access is undefined behavior". -/
def select_row (N_ROW M_COL : Nat) (row_idx : Nat) (mat : List R) : Option (List R) :=
  if row_idx < N_ROW then some ((mat.drop (row_idx * M_COL)).take M_COL) else none

/-- Modelled from the spec: `dot_product` lives in `vector_operations.hpp`, which is
not in the available sources (only its call in `right_multiply` is). Spec: "given
two vectors of equal length `n`, returns `Σ_{k=0}^{n-1} a[k]*b[k]`"; the equal
length is part of the argument types, so other lengths give `none`. -/
def dot_product [CommRing R] (n : Nat) (a b : List R) : Option R :=
  if a.length = n ∧ b.length = n then
    some (∑ k ∈ Finset.range n, a.getD k 0 * b.getD k 0)
  else none

/-- Embedding of `right_multiply<N_ROW, M_COL>(A, x, mul)` of matrix_operations.hpp. -/
def right_multiply [CommRing R] (N_ROW M_COL : Nat) (A x mul : List R) :
    Option (List R) :=
  forLoop N_ROW (fun i mul =>
    (select_row N_ROW M_COL i A).bind (fun a =>
    (dot_product M_COL a x).bind (fun d => wr mul i d))) mul

/-- Checked write `mat[r][c] = v` into a two-dimensional array
`Real_T mat[N_ROW][M_COL]`, kept as the list of its rows. -/
def wr2 (mat : List (List R)) (r c : Nat) (v : R) : Option (List (List R)) :=
  (mat[r]?).bind (fun line => (wr line c v).bind (fun line' => some (mat.set r line')))

/-- Checked read `mat[r][c]` from a two-dimensional array. -/
def rd2 (mat : List (List R)) (r c : Nat) : Option R :=
  (mat[r]?).bind (fun line => rd line c)

/-- Embedding of `replace_row<N_ROW, M_COL>(row_idx, row, mat)` of row_operations.hpp. The
dimensions occur only in the argument types `row[M_COL]` and `mat[N_ROW][M_COL]`;
the loop bound is `M_COL`. -/
def replace_row (N_ROW M_COL : Nat) (row_idx : Nat) (row : List R)
    (mat : List (List R)) : Option (List (List R)) :=
  forLoop M_COL (fun i mat => (rd row i).bind (fun v => wr2 mat row_idx i v)) mat

/-- The two-dimensional view `Real_T[N_ROW][M_COL]` of row-major storage: row `i`
is the `M_COL` entries from flat index `i * M_COL`. -/
def rows (N_ROW M_COL : Nat) (buf : List R) : List (List R) :=
  (List.range N_ROW).map (fun i => (buf.drop (i * M_COL)).take M_COL)

/-! The test harness `test/matrix_op-test.cpp`. -/

namespace test

def n_row_A : Nat := 2

def m_col_A : Nat := 3

def m_col_B : Nat := 3

def A : List (List Int) := [[1, 2, 3], [4, 5, 6]]

def B : List (List Int) := [[1, 2, 3], [-1, -2, 3], [1, -1, 3]]

def x : List Int := [1, -1]

def mul_ref : List Int := [-3, -3, -3]

def A_tr_ref : List (List Int) := [[1, 4], [2, 5], [3, 6]]

def AB_ref : List (List Int) := [[2, -5, 18], [5, -8, 45]]

/-- One comparison `if (ref - val) { success = false; }`. -/
def compare (ref val : Option Int) (success : Bool) : Option Bool :=
  ref.bind (fun r => val.bind (fun v => some (if r - v ≠ 0 then false else success)))

/-- Embedding of `main` of matrix_op-test.cpp, returning the exit status. The
uninitialised locals `A_tr`, `mul` and `AB` start with the arbitrary contents
`A_tr0`, `mul0`, `AB0` (row-major storage); the two-dimensional arrays are passed
to the library as their row-major storage and compared through checked
two-dimensional reads. The first comparison loop runs `j` up to `m_col_A`, as the
source does. -/
def main (A_tr0 mul0 AB0 : List Int) : Option Int :=
  (transpose n_row_A m_col_A A.flatten A_tr0).bind (fun A_tr =>
  (right_multiply m_col_A n_row_A A_tr x mul0).bind (fun mul =>
  (multiply n_row_A m_col_A m_col_B A.flatten B.flatten AB0).bind (fun AB =>
  (forLoop m_col_A (fun i success =>
      forLoop m_col_A (fun j success =>
        compare (rd2 A_tr_ref i j) (rd2 (rows m_col_A n_row_A A_tr) i j) success) success)
    true).bind (fun success =>
  (forLoop m_col_A (fun i success =>
      compare (rd mul_ref i) (rd mul i) success) success).bind (fun success =>
  (forLoop n_row_A (fun i success =>
      forLoop m_col_B (fun j success =>
        compare (rd2 AB_ref i j) (rd2 (rows n_row_A m_col_B AB) i j) success) success)
    success).bind (fun success =>
  if success then some 0 else some 1))))))

end test

/-- A two-dimensional array `Real_T mat[N_ROW][M_COL]`: `N_ROW` rows of `M_COL`
entries each. -/
def IsMat (N_ROW M_COL : Nat) (mat : List (List R)) : Prop :=
  mat.length = N_ROW ∧ ∀ line, line ∈ mat → line.length = M_COL

/-- The buffer `t` holds the `N`-by-`M` row-major matrix with entries `g r c`. -/
def Holds (N M : Nat) (t : List R) (g : Nat → Nat → R) : Prop :=
  t.length = N * M ∧ ∀ r c, r < N → c < M → rd t (r * M + c) = some (g r c)

/-! ## Shared lemmas: checked access, loops, index arithmetic -/

theorem wr_of_lt (buf : List R) (i : Nat) (v : R) (h : i < buf.length) :
    wr buf i v = some (buf.set i v) := by
  simp [wr, h]

theorem rd_of_lt (buf : List R) (i : Nat) (h : i < buf.length) :
    rd buf i = some (buf.get ⟨i, h⟩) := by
  simp [rd, List.getElem?_eq_getElem h]

/-- Loop invariant rule: if `P 0` holds initially and each iteration `i < n`
succeeds from a state satisfying `P i` into one satisfying `P (i + 1)`, the loop
succeeds in a state satisfying `P n`. -/
theorem forLoop_inv {σ : Type} (P : Nat → σ → Prop) (body : Nat → σ → Option σ)
    (n : Nat) (s : σ) (h0 : P 0 s)
    (hstep : ∀ i t, i < n → P i t → ∃ t', body i t = some t' ∧ P (i + 1) t') :
    ∃ t, forLoop n body s = some t ∧ P n t := by
  induction n with
  | zero => exact ⟨s, rfl, h0⟩
  | succ n ih =>
    obtain ⟨t, ht, hP⟩ := ih (fun i t hi hp => hstep i t (Nat.lt_succ_of_lt hi) hp)
    obtain ⟨t', ht', hP'⟩ := hstep n t (Nat.lt_succ_self n) hP
    exact ⟨t', by simp [forLoop, ht, ht'], hP'⟩

/-- Row-major indices are in range. -/
theorem idx_lt {N M i j : Nat} (hi : i < N) (hj : j < M) : i * M + j < N * M := by
  calc i * M + j < i * M + M := Nat.add_lt_add_left hj _
    _ = (i + 1) * M := by ring
    _ ≤ N * M := Nat.mul_le_mul_right M hi

/-- Row-major indexing is injective on in-range column indices. -/
theorem idx_inj {M r c i j : Nat} (hc : c < M) (hj : j < M)
    (h : r * M + c = i * M + j) : r = i ∧ c = j := by
  have hr : r = i := by
    rcases Nat.lt_trichotomy r i with hlt | heq | hgt
    · have h1 : (r + 1) * M ≤ i * M := Nat.mul_le_mul_right M hlt
      have e : (r + 1) * M = r * M + M := by ring
      omega
    · exact heq
    · have h1 : (i + 1) * M ≤ r * M := Nat.mul_le_mul_right M hgt
      have e : (i + 1) * M = i * M + M := by ring
      omega
  subst hr
  exact ⟨rfl, by omega⟩

theorem idx_ne {M r c i j : Nat} (hc : c < M) (hj : j < M) (h : r ≠ i ∨ c ≠ j) :
    r * M + c ≠ i * M + j := by
  intro e
  obtain ⟨h1, h2⟩ := idx_inj hc hj e
  rcases h with h | h
  · exact h h1
  · exact h h2

/-! ## transpose -/

/-- The inner loop of `transpose` for a fixed row `i`. -/
theorem transpose_inner (N M : Nat) (A s : List R) (i : Nat) (hi : i < N)
    (hA : A.length = N * M) (hs : s.length = N * M)
    (hprev : ∀ r c, r < i → c < M → rd s (c * N + r) = rd A (r * M + c)) :
    ∃ t, forLoop M (fun j A_tr =>
        (rd A (i * M + j)).bind (fun a => wr A_tr (j * N + i) a)) s = some t ∧
      t.length = N * M ∧
      ∀ r c, r < i + 1 → c < M → rd t (c * N + r) = rd A (r * M + c) := by
  have key := forLoop_inv
    (fun j (t : List R) => t.length = N * M ∧
      (∀ r c, r < i → c < M → rd t (c * N + r) = rd A (r * M + c)) ∧
      ∀ c, c < j → rd t (c * N + i) = rd A (i * M + c))
    (fun j A_tr => (rd A (i * M + j)).bind (fun a => wr A_tr (j * N + i) a))
    M s ⟨hs, hprev, fun c hc => absurd hc (Nat.not_lt_zero c)⟩
    (by
      intro j t hj ⟨hlen, hold, hcur⟩
      have hrA : i * M + j < A.length := hA ▸ idx_lt hi hj
      have hwT : j * N + i < t.length := by
        rw [hlen, Nat.mul_comm N M]; exact idx_lt hj hi
      refine ⟨t.set (j * N + i) (A.get ⟨i * M + j, hrA⟩), ?_, ?_, ?_, ?_⟩
      · simp [rd_of_lt A _ hrA, wr_of_lt t _ _ hwT]
      · simpa using hlen
      · intro r c hr hc
        have hne : j * N + i ≠ c * N + r :=
          idx_ne hi (Nat.lt_trans hr hi) (Or.inr (Nat.ne_of_gt hr))
        rw [← hold r c hr hc]
        simp [rd, List.getElem?_set_ne hne]
      · intro c hc
        rcases Nat.lt_succ_iff_lt_or_eq.mp hc with hlt | heq
        · have hne : j * N + i ≠ c * N + i :=
            idx_ne hi hi (Or.inl (Nat.ne_of_gt hlt))
          rw [← hcur c hlt]
          simp [rd, List.getElem?_set_ne hne]
        · subst heq
          rw [rd_of_lt A _ hrA]
          simp [rd, hwT])
  obtain ⟨t, ht, hlen, hold, hcur⟩ := key
  refine ⟨t, ht, hlen, ?_⟩
  intro r c hr hc
  rcases Nat.lt_succ_iff_lt_or_eq.mp hr with hlt | heq
  · exact hold r c hlt hc
  · subst heq; exact hcur c hc

/-- Specification of `transpose`: on buffers of the declared length the call
succeeds and entry `(j, i)` of the output is entry `(i, j)` of the input. -/
theorem transpose_spec (N M : Nat) (A A_tr : List R)
    (hA : A.length = N * M) (hT : A_tr.length = N * M) :
    ∃ out, transpose N M A A_tr = some out ∧ out.length = N * M ∧
      ∀ i j, i < N → j < M → rd out (j * N + i) = rd A (i * M + j) := by
  have key := forLoop_inv
    (fun i (t : List R) => t.length = N * M ∧
      ∀ r c, r < i → c < M → rd t (c * N + r) = rd A (r * M + c))
    (fun i A_tr => forLoop M (fun j A_tr =>
        (rd A (i * M + j)).bind (fun a => wr A_tr (j * N + i) a)) A_tr)
    N A_tr ⟨hT, fun r c hr => absurd hr (Nat.not_lt_zero r)⟩
    (by
      intro i t hi ⟨hlen, hold⟩
      exact transpose_inner N M A t i hi hA hlen hold)
  obtain ⟨out, hout, hlen, hall⟩ := key
  exact ⟨out, hout, hlen, fun i j hi hj => hall i j hi hj⟩

/-! ## multiply -/

theorem rd_getD [Zero R] (buf : List R) (i : Nat) (h : i < buf.length) :
    rd buf i = some (buf.getD i 0) := by
  simp [rd, List.getD, List.getElem?_eq_getElem h]

/-- The zeroing loop of `multiply` sets every slot of a buffer of length `L`. -/
theorem zero_loop [Zero R] (L : Nat) (mul : List R) (h : mul.length = L) :
    forLoop L (fun i mul => wr mul i 0) mul = some (List.replicate L (0 : R)) := by
  obtain ⟨t, ht, hlen, hall⟩ := forLoop_inv
    (fun i (t : List R) => t.length = L ∧ ∀ idx, idx < i → t[idx]? = some 0)
    (fun i mul => wr mul i 0) L mul ⟨h, fun idx hidx => absurd hidx (Nat.not_lt_zero idx)⟩
    (by
      intro i t hi ⟨hlen, hall⟩
      have hit : i < t.length := hlen ▸ hi
      refine ⟨t.set i 0, wr_of_lt t i 0 hit, by simpa using hlen, ?_⟩
      intro idx hidx
      rcases Nat.lt_succ_iff_lt_or_eq.mp hidx with hlt | heq
      · rw [List.getElem?_set_ne (Nat.ne_of_gt hlt)]; exact hall idx hlt
      · subst heq; simp [hit])
  rw [ht]
  congr 1
  apply List.ext_getElem?
  intro idx
  by_cases hidx : idx < L
  · rw [hall idx hidx]; simp [hidx]
  · have h1 : t.length ≤ idx := by omega
    simp only [List.getElem?_eq_none h1]
    symm
    simp
    omega

theorem Holds.congr {N M : Nat} {t : List R} {g g' : Nat → Nat → R}
    (h : Holds N M t g) (e : ∀ r c, r < N → c < M → g r c = g' r c) : Holds N M t g' :=
  ⟨h.1, fun r c hr hc => by rw [h.2 r c hr hc, e r c hr hc]⟩

/-- Writing entry `(i, j)` of a held matrix. -/
theorem Holds.set {N M : Nat} {t : List R} {g : Nat → Nat → R} (h : Holds N M t g)
    {i j : Nat} (hi : i < N) (hj : j < M) (v : R) :
    Holds N M (t.set (i * M + j) v) (fun r c => if r = i ∧ c = j then v else g r c) := by
  refine ⟨by simpa using h.1, ?_⟩
  intro r c hr hc
  by_cases e : r = i ∧ c = j
  · obtain ⟨rfl, rfl⟩ := e
    have : r * M + c < t.length := h.1 ▸ idx_lt hr hc
    simp [rd, this]
  · have hne : i * M + j ≠ r * M + c :=
      idx_ne hj hc (by rcases not_and_or.mp e with h1 | h1
                       · exact Or.inl (fun q => h1 q.symm)
                       · exact Or.inr (fun q => h1 q.symm))
    simp only [e, if_false]
    rw [← h.2 r c hr hc]
    simp [rd, List.getElem?_set_ne hne]

/-- The innermost loop of `multiply` (over `j`) when both column counts are `M`:
row `i` of the output gains the `k`-th term of every sum. -/
theorem multiply_loop_j [CommRing R] (N M : Nat) (A B s : List R) (g : Nat → Nat → R)
    (hA : A.length = N * M) (hB : B.length = M * M) (hs : Holds N M s g)
    (i k : Nat) (hi : i < N) (hk : k < M) :
    ∃ t, forLoop M (fun j mul =>
          (rd A (i * M + k)).bind (fun a =>
          (rd B (k * M + j)).bind (fun b =>
          (rd mul (i * M + j)).bind (fun m =>
            wr mul (i * M + j) (m + a * b))))) s = some t ∧
      Holds N M t (fun r c =>
        if r = i then g r c + A.getD (i * M + k) 0 * B.getD (k * M + c) 0 else g r c) := by
  obtain ⟨t, ht, hT⟩ := forLoop_inv
    (fun j (t : List R) => Holds N M t (fun r c =>
      if r = i ∧ c < j then g r c + A.getD (i * M + k) 0 * B.getD (k * M + c) 0 else g r c))
    (fun j mul =>
          (rd A (i * M + k)).bind (fun a =>
          (rd B (k * M + j)).bind (fun b =>
          (rd mul (i * M + j)).bind (fun m =>
            wr mul (i * M + j) (m + a * b)))))
    M s (hs.congr (fun r c _ _ => by simp))
    (by
      intro j t hj hT
      have hrA := rd_getD A (i * M + k) (hA ▸ idx_lt hi hk)
      have hrB := rd_getD B (k * M + j) (hB ▸ idx_lt hk hj)
      have hrm : rd t (i * M + j) = some (g i j) := by
        have := hT.2 i j hi hj
        simpa using this
      have hw : i * M + j < t.length := hT.1 ▸ idx_lt hi hj
      refine ⟨t.set (i * M + j) (g i j + A.getD (i * M + k) 0 * B.getD (k * M + j) 0),
        by simp [hrA, hrB, hrm, wr_of_lt _ _ _ hw], ?_⟩
      refine (hT.set hi hj _).congr ?_
      intro r c _ _
      by_cases e : r = i ∧ c = j
      · obtain ⟨rfl, rfl⟩ := e; simp
      · by_cases e1 : r = i
        · have e2 : c ≠ j := fun q => e ⟨e1, q⟩
          have e3 : c < j + 1 ↔ c < j := by omega
          simp [e1, e2, e3]
        · simp [e1])
  refine ⟨t, ht, hT.congr ?_⟩
  intro r c _ hc
  by_cases e1 : r = i <;> simp [e1, hc]

/-- The middle loop of `multiply` (over `k`) when both column counts are `M`:
row `i` of the output gains the full sums. -/
theorem multiply_loop_k [CommRing R] (N M : Nat) (A B s : List R) (g : Nat → Nat → R)
    (hA : A.length = N * M) (hB : B.length = M * M) (hs : Holds N M s g)
    (i : Nat) (hi : i < N) :
    ∃ t, forLoop M (fun k mul =>
          forLoop M (fun j mul =>
            (rd A (i * M + k)).bind (fun a =>
            (rd B (k * M + j)).bind (fun b =>
            (rd mul (i * M + j)).bind (fun m =>
              wr mul (i * M + j) (m + a * b))))) mul) s = some t ∧
      Holds N M t (fun r c =>
        if r = i then
          g r c + ∑ k ∈ Finset.range M, A.getD (i * M + k) 0 * B.getD (k * M + c) 0
        else g r c) := by
  refine forLoop_inv
    (fun k (t : List R) => Holds N M t (fun r c =>
      if r = i then
        g r c + ∑ k' ∈ Finset.range k, A.getD (i * M + k') 0 * B.getD (k' * M + c) 0
      else g r c))
    _ M s (hs.congr (fun r c _ _ => by simp)) ?_
  intro k t hk hT
  obtain ⟨t', ht', hT'⟩ := multiply_loop_j N M A B t _ hA hB hT i k hi hk
  refine ⟨t', ht', hT'.congr ?_⟩
  intro r c _ _
  by_cases e1 : r = i
  · simp [e1, Finset.sum_range_succ, add_assoc]
  · simp [e1]

/-- Specification of `multiply` when the two column counts coincide: the call
succeeds and every entry of the output is the matrix-product sum. -/
theorem multiply_spec [CommRing R] (N M : Nat) (A B mul : List R)
    (hA : A.length = N * M) (hB : B.length = M * M) (hmul : mul.length = N * M) :
    ∃ out, multiply N M M A B mul = some out ∧
      Holds N M out (fun i j =>
        ∑ k ∈ Finset.range M, A.getD (i * M + k) 0 * B.getD (k * M + j) 0) := by
  have hz : Holds N M (List.replicate (N * M) (0 : R)) (fun _ _ => 0) :=
    ⟨by simp, fun r c hr hc => by simp [rd, idx_lt hr hc]⟩
  obtain ⟨t, ht, hT⟩ := forLoop_inv
    (fun i (t : List R) => Holds N M t (fun r c =>
      if r < i then ∑ k ∈ Finset.range M, A.getD (r * M + k) 0 * B.getD (k * M + c) 0
      else 0))
    (fun i mul => forLoop M (fun k mul =>
          forLoop M (fun j mul =>
            (rd A (i * M + k)).bind (fun a =>
            (rd B (k * M + j)).bind (fun b =>
            (rd mul (i * M + j)).bind (fun m =>
              wr mul (i * M + j) (m + a * b))))) mul) mul)
    N (List.replicate (N * M) (0 : R)) (hz.congr (fun _ _ _ _ => by simp))
    (by
      intro i t hi hT
      obtain ⟨t', ht', hT'⟩ := multiply_loop_k N M A B t _ hA hB hT i hi
      refine ⟨t', ht', hT'.congr ?_⟩
      intro r c _ _
      by_cases e1 : r = i
      · subst e1; simp
      · by_cases e2 : r < i
        · have : r < i + 1 := by omega
          simp [e1, e2, this]
        · have : ¬ r < i + 1 := by omega
          simp [e1, e2, this])
  refine ⟨t, ?_, hT.congr (fun r c hr _ => by simp [hr])⟩
  simp only [multiply, zero_loop (N * M) mul hmul, Option.some_bind]
  exact ht

/-- A buffer holds the matrix of its own entries. -/
theorem holds_self [Zero R] (N M : Nat) (A : List R) (hA : A.length = N * M) :
    Holds N M A (fun i j => A.getD (i * M + j) 0) :=
  ⟨hA, fun _ _ hr hc => rd_getD A _ (hA ▸ idx_lt hr hc)⟩

/-- Two buffers holding the same matrix are equal. -/
theorem Holds.ext {N M : Nat} {t t' : List R} {g : Nat → Nat → R}
    (h : Holds N M t g) (h' : Holds N M t' g) : t = t' := by
  apply List.ext_getElem?
  intro idx
  by_cases hidx : idx < N * M
  · have hM : 0 < M := by
      rcases Nat.eq_zero_or_pos M with h0 | h0
      · subst h0; simp at hidx
      · exact h0
    have hr : idx / M < N := (Nat.div_lt_iff_lt_mul hM).mpr hidx
    have hc : idx % M < M := Nat.mod_lt _ hM
    have e : idx / M * M + idx % M = idx := by
      rw [Nat.mul_comm]; exact Nat.div_add_mod idx M
    have h1 := h.2 _ _ hr hc
    have h2 := h'.2 _ _ hr hc
    rw [e] at h1 h2
    simp only [rd] at h1 h2
    rw [h1, h2]
  · have h1 : t.length ≤ idx := by have := h.1; omega
    have h2 : t'.length ≤ idx := by have := h'.1; omega
    rw [List.getElem?_eq_none h1, List.getElem?_eq_none h2]

/-! ## right_multiply -/

/-- Entry `k` of the row view is entry `i * M + k` of the matrix. -/
theorem select_row_getD [Zero R] (M i k : Nat) (A : List R) (hk : k < M) :
    ((A.drop (i * M)).take M).getD k 0 = A.getD (i * M + k) 0 := by
  simp [List.getD_eq_getElem?_getD, List.getElem?_take, hk]

theorem select_row_length {N M i : Nat} (A : List R) (hA : A.length = N * M)
    (hi : i < N) : ((A.drop (i * M)).take M).length = M := by
  have h1 : (i + 1) * M ≤ N * M := Nat.mul_le_mul_right M hi
  have h2 : (i + 1) * M = i * M + M := by ring
  simp only [List.length_take, List.length_drop, hA]
  omega

/-- Specification of `right_multiply`: the call succeeds and entry `i` of the
output is the dot product of row `i` of `A` with `x`. -/
theorem right_multiply_spec [CommRing R] (N M : Nat) (A x mul : List R)
    (hA : A.length = N * M) (hx : x.length = M) (hmul : mul.length = N) :
    ∃ out, right_multiply N M A x mul = some out ∧ out.length = N ∧
      ∀ i, i < N →
        rd out i = some (∑ k ∈ Finset.range M, A.getD (i * M + k) 0 * x.getD k 0) := by
  refine forLoop_inv
    (fun i (t : List R) => t.length = N ∧
      ∀ r, r < i →
        rd t r = some (∑ k ∈ Finset.range M, A.getD (r * M + k) 0 * x.getD k 0))
    (fun i mul => (select_row N M i A).bind (fun a =>
      (dot_product M a x).bind (fun d => wr mul i d)))
    N mul ⟨hmul, fun r hr => absurd hr (Nat.not_lt_zero r)⟩ ?_
  intro i t hi ⟨hlen, hall⟩
  have hit : i < t.length := hlen ▸ hi
  have hsum : (∑ k ∈ Finset.range M, ((A.drop (i * M)).take M).getD k 0 * x.getD k 0)
      = ∑ k ∈ Finset.range M, A.getD (i * M + k) 0 * x.getD k 0 :=
    Finset.sum_congr rfl (fun k hk => by
      rw [select_row_getD M i k A (Finset.mem_range.mp hk)])
  have hsel : select_row N M i A = some ((A.drop (i * M)).take M) := by
    simp [select_row, hi]
  have hdot : dot_product M ((A.drop (i * M)).take M) x
      = some (∑ k ∈ Finset.range M, A.getD (i * M + k) 0 * x.getD k 0) := by
    rw [← hsum]
    simp [dot_product, select_row_length A hA hi, hx]
  refine ⟨t.set i (∑ k ∈ Finset.range M, A.getD (i * M + k) 0 * x.getD k 0), ?_, ?_, ?_⟩
  · simp only [hsel, hdot, Option.some_bind, wr_of_lt _ _ _ hit]
  · simpa using hlen
  · intro r hr
    rcases Nat.lt_succ_iff_lt_or_eq.mp hr with hlt | heq
    · rw [← hall r hlt]
      simp [rd, List.getElem?_set_ne (Nat.ne_of_gt hlt)]
    · subst heq
      simp [rd, hit]

/-! ## replace_row -/

/-- Specification of `replace_row`: the call succeeds, the addressed row becomes
`row`, and every other row is untouched. -/
theorem replace_row_spec (N M : Nat) (row_idx : Nat) (row : List R)
    (mat : List (List R)) (hidx : row_idx < N) (hrow : row.length = M)
    (hmat : IsMat N M mat) :
    ∃ out, replace_row N M row_idx row mat = some out ∧ IsMat N M out ∧
      out[row_idx]? = some row ∧ ∀ r, r ≠ row_idx → out[r]? = mat[r]? := by
  have hmem : ∀ (t : List (List R)) (r : Nat) (l : List R),
      (∀ line, line ∈ t → line.length = M) → t[r]? = some l → l.length = M :=
    fun t r l ht hl => ht l (List.getElem?_mem hl)
  obtain ⟨cur0, hcur0⟩ : ∃ cur, mat[row_idx]? = some cur :=
    ⟨mat.get ⟨row_idx, hmat.1 ▸ hidx⟩, List.getElem?_eq_getElem _⟩
  obtain ⟨out, hout, hM, ⟨cur, hcur, hk⟩, hother⟩ := forLoop_inv
    (fun i (t : List (List R)) => IsMat N M t ∧
      (∃ cur, t[row_idx]? = some cur ∧ ∀ k, k < i → cur[k]? = row[k]?) ∧
      ∀ r, r ≠ row_idx → t[r]? = mat[r]?)
    (fun i mat => (rd row i).bind (fun v => wr2 mat row_idx i v))
    M mat ⟨hmat, ⟨cur0, hcur0, fun k hk => absurd hk (Nat.not_lt_zero k)⟩, fun _ _ => rfl⟩
    (by
      intro i t hi ⟨hM, ⟨cur, hcur, hk⟩, hother⟩
      have hclen : cur.length = M := hmem t row_idx cur hM.2 hcur
      have hri : i < row.length := hrow ▸ hi
      have hci : i < cur.length := hclen ▸ hi
      have hrt : row_idx < t.length := hM.1 ▸ hidx
      refine ⟨t.set row_idx (cur.set i (row.get ⟨i, hri⟩)), ?_, ⟨?_, ?_⟩, ?_, ?_⟩
      · simp [rd_of_lt row i hri, wr2, hcur, wr_of_lt cur i _ hci]
      · simpa using hM.1
      · intro line hline
        rcases List.mem_or_eq_of_mem_set hline with h1 | h1
        · exact hM.2 line h1
        · rw [h1]; simpa using hclen
      · refine ⟨cur.set i (row.get ⟨i, hri⟩), by simp [hrt], ?_⟩
        intro k hk'
        rcases Nat.lt_succ_iff_lt_or_eq.mp hk' with hlt | heq
        · rw [List.getElem?_set_ne (Nat.ne_of_gt hlt)]; exact hk k hlt
        · subst heq
          simp [hci, List.getElem?_eq_getElem hri]
      · intro r hr
        rw [List.getElem?_set_ne (fun q => hr q.symm)]
        exact hother r hr)
  refine ⟨out, hout, hM, ?_, hother⟩
  rw [hcur]
  congr 1
  have hclen : cur.length = M := hmem out row_idx cur hM.2 hcur
  apply List.ext_getElem?
  intro k
  by_cases hkM : k < M
  · exact hk k hkM
  · rw [List.getElem?_eq_none (by omega), List.getElem?_eq_none (by omega)]

/-- The flat row-major view of a two-dimensional array: the row at `row_idx` is
what `select_row` views at `row_idx * M`. -/
theorem select_row_flatten (M : Nat) (mat : List (List R))
    (hmat : ∀ line, line ∈ mat → line.length = M) (i : Nat) (row : List R)
    (h : mat[i]? = some row) : (mat.flatten.drop (i * M)).take M = row := by
  induction mat generalizing i with
  | nil => simp at h
  | cons l ls ih =>
    have hl : l.length = M := hmat l (List.mem_cons_self l ls)
    cases i with
    | zero =>
      simp only [List.getElem?_cons_zero, Option.some.injEq] at h
      subst h
      simp [← hl]
    | succ i =>
      simp only [List.getElem?_cons_succ] at h
      have e : (i + 1) * M = l.length + i * M := by rw [hl]; ring
      rw [List.flatten_cons, e, List.drop_append]
      exact ih (fun line hline => hmat line (List.mem_cons_of_mem l hline)) i h

/-! ## multiply: definedness for `M_COL_A ≤ M_COL_B` -/

/-- When `M_COL_A ≤ M_COL_B` every index `multiply` touches is inside its buffer,
so the call succeeds. -/
theorem multiply_defined [CommRing R] (N MA MB : Nat) (A B mul : List R)
    (hA : A.length = N * MA) (hB : B.length = MA * MB) (hmul : mul.length = N * MB)
    (hle : MA ≤ MB) :
    ∃ out, multiply N MA MB A B mul = some out ∧ out.length = N * MB := by
  simp only [multiply, zero_loop (N * MB) mul hmul, Option.some_bind]
  refine forLoop_inv (fun _ (t : List R) => t.length = N * MB) _ N _ (by simp) ?_
  intro i t hi ht
  refine forLoop_inv (fun _ (t : List R) => t.length = N * MB) _ MA _ ht ?_
  intro k t hk ht
  refine forLoop_inv (fun _ (t : List R) => t.length = N * MB) _ MB _ ht ?_
  intro j t hj ht
  have hrA := rd_of_lt A (i * MA + k) (hA ▸ idx_lt hi hk)
  have hrB := rd_of_lt B (k * MB + j) (hB ▸ idx_lt hk hj)
  have hw : i * MA + j < t.length := by
    have h1 : i * MA ≤ i * MB := Nat.mul_le_mul_left i hle
    have h2 := idx_lt hi hj
    omega
  have hrm := rd_of_lt t (i * MA + j) hw
  simp only [hrA, hrB, hrm, Option.some_bind, wr_of_lt _ _ _ hw]
  exact ⟨_, rfl, by simpa using ht⟩

/-! ## Outputs do not depend on the initial content of the output buffer -/

/-- The output of `transpose`, read as an `M`-by-`N` matrix, holds the entries of
`A` with the indices exchanged. -/
theorem transpose_holds [Zero R] (N M : Nat) (A A_tr : List R)
    (hA : A.length = N * M) (hT : A_tr.length = N * M) :
    ∃ out, transpose N M A A_tr = some out ∧
      Holds M N out (fun j i => A.getD (i * M + j) 0) := by
  obtain ⟨out, hout, hlen, hall⟩ := transpose_spec N M A A_tr hA hT
  refine ⟨out, hout, by rw [hlen, Nat.mul_comm], fun j i hj hi => ?_⟩
  rw [hall i j hi hj]
  exact rd_getD A _ (hA ▸ idx_lt hi hj)

theorem transpose_indep (N M : Nat) (A t1 t2 : List R)
    (hA : A.length = N * M) (h1 : t1.length = N * M) (h2 : t2.length = N * M) :
    transpose N M A t1 = transpose N M A t2 := by
  obtain ⟨o1, ho1, hl1, ha1⟩ := transpose_spec N M A t1 hA h1
  obtain ⟨o2, ho2, hl2, ha2⟩ := transpose_spec N M A t2 hA h2
  rw [ho1, ho2]
  congr 1
  apply List.ext_getElem?
  intro idx
  by_cases hidx : idx < N * M
  · have hN : 0 < N := by
      rcases Nat.eq_zero_or_pos N with h0 | h0
      · subst h0; simp at hidx
      · exact h0
    have hj : idx / N < M := (Nat.div_lt_iff_lt_mul hN).mpr (by rw [Nat.mul_comm]; exact hidx)
    have hi : idx % N < N := Nat.mod_lt idx hN
    have e : idx / N * N + idx % N = idx := by
      rw [Nat.mul_comm]; exact Nat.div_add_mod idx N
    have e1 := ha1 _ _ hi hj
    have e2 := ha2 _ _ hi hj
    rw [e] at e1 e2
    simp only [rd] at e1 e2
    rw [e1, e2]
  · rw [List.getElem?_eq_none (by omega), List.getElem?_eq_none (by omega)]

theorem right_multiply_indep [CommRing R] (N M : Nat) (A x m1 m2 : List R)
    (hA : A.length = N * M) (hx : x.length = M)
    (h1 : m1.length = N) (h2 : m2.length = N) :
    right_multiply N M A x m1 = right_multiply N M A x m2 := by
  obtain ⟨o1, ho1, hl1, ha1⟩ := right_multiply_spec N M A x m1 hA hx h1
  obtain ⟨o2, ho2, hl2, ha2⟩ := right_multiply_spec N M A x m2 hA hx h2
  rw [ho1, ho2]
  congr 1
  apply List.ext_getElem?
  intro idx
  by_cases hidx : idx < N
  · have e1 := ha1 idx hidx
    have e2 := ha2 idx hidx
    simp only [rd] at e1 e2
    rw [e1, e2]
  · rw [List.getElem?_eq_none (by omega), List.getElem?_eq_none (by omega)]

theorem multiply_indep [CommRing R] (N MA MB : Nat) (A B m1 m2 : List R)
    (h1 : m1.length = N * MB) (h2 : m2.length = N * MB) :
    multiply N MA MB A B m1 = multiply N MA MB A B m2 := by
  simp only [multiply, zero_loop _ m1 h1, zero_loop _ m2 h2]

/-! ## The claims -/

/-- C1 (defect in the code): with the 2-by-1 matrix `A = [[1],[1]]` and the 1-by-2
matrix `B = [[1,1]]`, `multiply<2,1,2>` leaves `[1,2,1,0]` in the output, which is
not the matrix of the sums `Σ_k A[i*1+k] * B[k*2+j]` (that is `[1,1,1,1]`): the
accumulation writes `mul[i * M_COL_A + j]`, not `mul[i * M_COL_B + j]`. -/
theorem C1_multiply_rect_wrong :
    multiply 2 1 2 ([1, 1] : List Int) [1, 1] [0, 0, 0, 0] = some [1, 2, 1, 0] ∧
    ¬ (∀ i j, i < 2 → j < 2 →
        rd ([1, 2, 1, 0] : List Int) (i * 2 + j) =
          some (∑ k ∈ Finset.range 1,
            ([1, 1] : List Int).getD (i * 1 + k) 0 * ([1, 1] : List Int).getD (k * 2 + j) 0)) := by
  refine ⟨by decide, fun h => ?_⟩
  have h01 := h 0 1 (by decide) (by decide)
  revert h01
  decide

/-- C2: on buffers of the declared length `N_ROW * M_COL`, `transpose<N_ROW, M_COL>`
succeeds and its output satisfies `A_tr[j*N_ROW + i] = A[i*M_COL + j]` for every
`i < N_ROW` and `j < M_COL` (both reads being in range). -/
theorem C2_transpose_entries (N_ROW M_COL : Nat) (A A_tr : List R)
    (hA : A.length = N_ROW * M_COL) (hT : A_tr.length = N_ROW * M_COL) :
    ∃ out, transpose N_ROW M_COL A A_tr = some out ∧ out.length = M_COL * N_ROW ∧
      ∀ i j, i < N_ROW → j < M_COL →
        ∃ a, rd A (i * M_COL + j) = some a ∧ rd out (j * N_ROW + i) = some a := by
  obtain ⟨out, hout, hlen, hall⟩ := transpose_spec N_ROW M_COL A A_tr hA hT
  refine ⟨out, hout, by rw [hlen, Nat.mul_comm], fun i j hi hj => ?_⟩
  have hr := rd_of_lt A (i * M_COL + j) (hA ▸ idx_lt hi hj)
  exact ⟨_, hr, by rw [hall i j hi hj, hr]⟩

/-- The 2-by-3 matrix `[[1,2,3],[4,5,6]]` transposed. -/
theorem C2_transpose_entries_witness :
    ∃ out, transpose 2 3 ([1, 2, 3, 4, 5, 6] : List Int) [0, 0, 0, 0, 0, 0] = some out ∧
      out.length = 3 * 2 ∧
      ∀ i j, i < 2 → j < 3 →
        ∃ a, rd ([1, 2, 3, 4, 5, 6] : List Int) (i * 3 + j) = some a ∧
          rd out (j * 2 + i) = some a :=
  C2_transpose_entries 2 3 [1, 2, 3, 4, 5, 6] [0, 0, 0, 0, 0, 0] (by decide) (by decide)

/-- C3: on buffers of the declared lengths, `right_multiply<N_ROW, M_COL>` succeeds
and its output satisfies `mul[i] = Σ_{k < M_COL} A[i*M_COL + k] * x[k]` for every
`i < N_ROW` (the indices under the sum are in range, where `getD` is the entry). -/
theorem C3_right_multiply_entries [CommRing R] (N_ROW M_COL : Nat) (A x mul : List R)
    (hA : A.length = N_ROW * M_COL) (hx : x.length = M_COL) (hmul : mul.length = N_ROW) :
    ∃ out, right_multiply N_ROW M_COL A x mul = some out ∧ out.length = N_ROW ∧
      ∀ i, i < N_ROW →
        rd out i =
          some (∑ k ∈ Finset.range M_COL, A.getD (i * M_COL + k) 0 * x.getD k 0) :=
  right_multiply_spec N_ROW M_COL A x mul hA hx hmul

/-- The 3-by-2 matrix `[[1,4],[2,5],[3,6]]` applied to `[1,-1]`. -/
theorem C3_right_multiply_entries_witness :
    ∃ out, right_multiply 3 2 ([1, 4, 2, 5, 3, 6] : List Int) [1, -1] [0, 0, 0] = some out ∧
      out.length = 3 ∧
      ∀ i, i < 3 →
        rd out i =
          some (∑ k ∈ Finset.range 2,
            ([1, 4, 2, 5, 3, 6] : List Int).getD (i * 2 + k) 0 * ([1, -1] : List Int).getD k 0) :=
  C3_right_multiply_entries 3 2 [1, 4, 2, 5, 3, 6] [1, -1] [0, 0, 0]
    (by decide) (by decide) (by decide)

/-- C4: transpose is an involution: `transpose<N_ROW, M_COL>(A, B)` followed by
`transpose<M_COL, N_ROW>(B, C)` both succeed and leave `C` equal to `A`. -/
theorem C4_transpose_involution (N_ROW M_COL : Nat) (A B0 C0 : List R)
    (hA : A.length = N_ROW * M_COL) (hB0 : B0.length = N_ROW * M_COL)
    (hC0 : C0.length = M_COL * N_ROW) :
    ∃ B C, transpose N_ROW M_COL A B0 = some B ∧
      transpose M_COL N_ROW B C0 = some C ∧ C = A := by
  obtain ⟨B, hB, hBlen, hBall⟩ := transpose_spec N_ROW M_COL A B0 hA hB0
  obtain ⟨C, hC, hClen, hCall⟩ :=
    transpose_spec M_COL N_ROW B C0 (by rw [hBlen, Nat.mul_comm]) hC0
  refine ⟨B, C, hB, hC, ?_⟩
  have h1 : ∀ r c, r < N_ROW → c < M_COL →
      rd C (r * M_COL + c) = rd A (r * M_COL + c) := fun r c hr hc => by
    rw [hCall c r hc hr, hBall r c hr hc]
  apply List.ext_getElem?
  intro idx
  by_cases hidx : idx < N_ROW * M_COL
  · have hM : 0 < M_COL := by
      rcases Nat.eq_zero_or_pos M_COL with h0 | h0
      · subst h0; simp at hidx
      · exact h0
    have e : idx / M_COL * M_COL + idx % M_COL = idx := by
      rw [Nat.mul_comm]; exact Nat.div_add_mod idx M_COL
    have := h1 _ _ ((Nat.div_lt_iff_lt_mul hM).mpr hidx) (Nat.mod_lt idx hM)
    rw [e] at this
    exact this
  · rw [List.getElem?_eq_none (by rw [hClen, Nat.mul_comm]; omega),
      List.getElem?_eq_none (by omega)]

/-- The 2-by-3 matrix `[[1,2,3],[4,5,6]]` transposed twice. -/
theorem C4_transpose_involution_witness :
    ∃ B C, transpose 2 3 ([1, 2, 3, 4, 5, 6] : List Int) [0, 0, 0, 0, 0, 0] = some B ∧
      transpose 3 2 B [9, 9, 9, 9, 9, 9] = some C ∧ C = [1, 2, 3, 4, 5, 6] :=
  C4_transpose_involution 2 3 [1, 2, 3, 4, 5, 6] [0, 0, 0, 0, 0, 0] [9, 9, 9, 9, 9, 9]
    (by decide) (by decide) (by decide)

/-- C5: for `row_idx < N_ROW`, a vector `row` of length `M_COL` and an
`N_ROW`-by-`M_COL` array `mat`, `replace_row` succeeds and afterwards
`mat[row_idx][k] = row[k]` for every `k < M_COL`; equivalently the `M_COL` entries
of the flat storage that `select_row(row_idx, mat)` views are `row`. -/
theorem C5_replace_row_sets_row (N_ROW M_COL row_idx : Nat) (row : List R)
    (mat : List (List R)) (hidx : row_idx < N_ROW) (hrow : row.length = M_COL)
    (hmat : IsMat N_ROW M_COL mat) :
    ∃ out, replace_row N_ROW M_COL row_idx row mat = some out ∧
      IsMat N_ROW M_COL out ∧
      (∀ k, k < M_COL → ∃ v, rd row k = some v ∧ rd2 out row_idx k = some v) ∧
      select_row N_ROW M_COL row_idx out.flatten = some row := by
  obtain ⟨out, hout, hM, hcur, _⟩ := replace_row_spec N_ROW M_COL row_idx row mat hidx hrow hmat
  refine ⟨out, hout, hM, fun k hk => ?_, ?_⟩
  · have hr := rd_of_lt row k (hrow ▸ hk)
    exact ⟨_, hr, by simp only [rd2, hcur, Option.some_bind, hr]⟩
  · simp only [select_row, hidx, if_true]
    rw [select_row_flatten M_COL out hM.2 row_idx row hcur]

/-- Row 1 of `[[1,2,3],[4,5,6]]` replaced by `[7,8,9]`. -/
theorem C5_replace_row_sets_row_witness :
    ∃ out, replace_row 2 3 1 ([7, 8, 9] : List Int) [[1, 2, 3], [4, 5, 6]] = some out ∧
      IsMat 2 3 out ∧
      (∀ k, k < 3 → ∃ v, rd ([7, 8, 9] : List Int) k = some v ∧ rd2 out 1 k = some v) ∧
      select_row 2 3 1 out.flatten = some [7, 8, 9] :=
  C5_replace_row_sets_row 2 3 1 [7, 8, 9] [[1, 2, 3], [4, 5, 6]] (by decide) (by decide)
    ⟨by decide, by decide⟩

/-- C6: `replace_row` changes only the addressed row: every entry `mat[r][k]` with
`r < N_ROW`, `r ≠ row_idx` and `k < M_COL` has after the call the value it had
before. -/
theorem C6_replace_row_frame (N_ROW M_COL row_idx : Nat) (row : List R)
    (mat : List (List R)) (hidx : row_idx < N_ROW) (hrow : row.length = M_COL)
    (hmat : IsMat N_ROW M_COL mat) :
    ∃ out, replace_row N_ROW M_COL row_idx row mat = some out ∧
      ∀ r k, r < N_ROW → r ≠ row_idx → k < M_COL →
        ∃ v, rd2 mat r k = some v ∧ rd2 out r k = some v := by
  obtain ⟨out, hout, _, _, hother⟩ :=
    replace_row_spec N_ROW M_COL row_idx row mat hidx hrow hmat
  refine ⟨out, hout, fun r k hr hne hk => ?_⟩
  have hrm : r < mat.length := hmat.1 ▸ hr
  have hline : mat[r]? = some (mat.get ⟨r, hrm⟩) := List.getElem?_eq_getElem hrm
  have hlen : (mat.get ⟨r, hrm⟩).length = M_COL := hmat.2 _ (List.getElem?_mem hline)
  have hv := rd_of_lt (mat.get ⟨r, hrm⟩) k (hlen ▸ hk)
  simp only [rd2, hother r hne, hline, Option.some_bind, hv]
  exact ⟨_, rfl, rfl⟩

/-- Row 0 of `[[1,2,3],[4,5,6]]` is kept when row 1 is replaced. -/
theorem C6_replace_row_frame_witness :
    ∃ out, replace_row 2 3 1 ([7, 8, 9] : List Int) [[1, 2, 3], [4, 5, 6]] = some out ∧
      ∀ r k, r < 2 → r ≠ 1 → k < 3 →
        ∃ v, rd2 ([[1, 2, 3], [4, 5, 6]] : List (List Int)) r k = some v ∧
          rd2 out r k = some v :=
  C6_replace_row_frame 2 3 1 [7, 8, 9] [[1, 2, 3], [4, 5, 6]] (by decide) (by decide)
    ⟨by decide, by decide⟩

/-- C7 (defect in the code): with the 2-by-2 identity and the 2-by-3 matrix
`A = [[1,2,3],[4,5,6]]`, `multiply<2,2,3>(I, A, mul)` leaves `[1,2,7,5,6,0]`, not
`A`: row 1 is accumulated from flat index `1 * M_COL_A = 2` instead of
`1 * M_COL_B = 3`. -/
theorem C7_multiply_left_identity_wrong :
    multiply 2 2 3 ([1, 0, 0, 1] : List Int) [1, 2, 3, 4, 5, 6] [0, 0, 0, 0, 0, 0]
      = some [1, 2, 7, 5, 6, 0] ∧
    ([1, 2, 7, 5, 6, 0] : List Int) ≠ [1, 2, 3, 4, 5, 6] := by
  refine ⟨by decide, by decide⟩

/-- C8: right identity of multiply: for an `N_ROW`-by-`M_COL` matrix `A` and the
`M_COL`-by-`M_COL` identity `I` (1 at the flat indices `k*M_COL + k`, 0 elsewhere),
`multiply<N_ROW, M_COL, M_COL>(A, I, mul)` succeeds and leaves `mul` equal to `A`. -/
theorem C8_multiply_right_identity [CommRing R] (N_ROW M_COL : Nat) (A I mul : List R)
    (hA : A.length = N_ROW * M_COL) (hI : I.length = M_COL * M_COL)
    (hId : ∀ k, k < M_COL → ∀ j, j < M_COL →
      rd I (k * M_COL + j) = some (if k = j then 1 else 0))
    (hmul : mul.length = N_ROW * M_COL) :
    multiply N_ROW M_COL M_COL A I mul = some A := by
  obtain ⟨out, hout, hH⟩ := multiply_spec N_ROW M_COL A I mul hA hI hmul
  rw [hout]
  congr 1
  refine Holds.ext (hH.congr ?_) (holds_self N_ROW M_COL A hA)
  intro i j _ hj
  have hI' : ∀ k, k < M_COL → I.getD (k * M_COL + j) 0 = if k = j then 1 else 0 :=
    fun k hk => by
      have h1 := rd_getD I (k * M_COL + j) (hI ▸ idx_lt hk hj)
      rw [hId k hk j hj] at h1
      exact (Option.some.inj h1).symm
  rw [Finset.sum_eq_single j]
  · rw [hI' j hj, if_pos rfl, mul_one]
  · intro k hk hne
    rw [hI' k (Finset.mem_range.mp hk), if_neg hne, mul_zero]
  · intro h
    exact absurd (Finset.mem_range.mpr hj) h

/-- The 2-by-2 matrix `[[1,2],[3,4]]` times the 2-by-2 identity. -/
theorem C8_multiply_right_identity_witness :
    multiply 2 2 2 ([1, 2, 3, 4] : List Int) [1, 0, 0, 1] [9, 9, 9, 9]
      = some [1, 2, 3, 4] :=
  C8_multiply_right_identity 2 2 [1, 2, 3, 4] [1, 0, 0, 1] [9, 9, 9, 9]
    (by decide) (by decide) (by decide) (by decide)

/-- C9 (defect in the code): with `A = [[1],[1]]` (2 by 1), `B = [[1,2]]` (1 by 2)
and `C = [[0,1],[1,0]]` (2 by 2), `multiply<2,2,2>(multiply<2,1,2>(A, B), C)` is
`[3,1,0,2]` while `multiply<2,1,2>(A, multiply<1,2,2>(B, C))` is `[2,3,1,0]`: the two
bracketings differ (the product is `[2,1,2,1]`), because `multiply<2,1,2>` writes
its rows with stride `M_COL_A`. -/
theorem C9_multiply_assoc_wrong :
    (multiply 2 1 2 ([1, 1] : List Int) [1, 2] [0, 0, 0, 0]).bind
        (fun AB => multiply 2 2 2 AB [0, 1, 1, 0] [0, 0, 0, 0]) = some [3, 1, 0, 2] ∧
    (multiply 1 2 2 ([1, 2] : List Int) [0, 1, 1, 0] [0, 0]).bind
        (fun BC => multiply 2 1 2 [1, 1] BC [0, 0, 0, 0]) = some [2, 3, 1, 0] ∧
    ([3, 1, 0, 2] : List Int) ≠ [2, 3, 1, 0] := by
  refine ⟨by decide, by decide, by decide⟩

/-- C10 (defect in the code): the zeroing loop does reset every slot of the output
(from `[5,7]` it leaves `[0,0]`), but `multiply<2,2,1>` then addresses
`mul[1 * M_COL_A + 0] = mul[2]` in its 2-slot output, so with checked indexing the
call leaves no final content at all, neither from the initial output `[0,0]` nor
from `[5,7]`. -/
theorem C10_multiply_no_final_content :
    forLoop (2 * 1) (fun i mul => wr mul i 0) ([5, 7] : List Int) = some [0, 0] ∧
    multiply 2 2 1 ([1, 2, 3, 4] : List Int) [5, 6] [0, 0] = none ∧
    multiply 2 2 1 ([1, 2, 3, 4] : List Int) [5, 6] [5, 7] = none := by
  refine ⟨by decide, by decide, by decide⟩

/-- C11 (defect in the test harness): the three library calls of `main` do produce
the reference values, `transpose<2,3>(A) = [[1,4],[2,5],[3,6]]`,
`right_multiply<3,2>` of it with `x` `= [-3,-3,-3]` and
`multiply<2,3,3>(A, B) = [[2,-5,18],[5,-8,45]]`, whatever the locals held before;
but the first comparison loop of `main` runs `j` up to `m_col_A = 3` over arrays
with `n_row_A = 2` columns, so it reads `A_tr_ref[0][2]` outside the row and, with
checked indexing, `main` does not return a status at all. -/
theorem C11_test_main_reads_out_of_range (A_tr0 mul0 AB0 : List Int)
    (h1 : A_tr0.length = test.n_row_A * test.m_col_A)
    (h2 : mul0.length = test.m_col_A)
    (h3 : AB0.length = test.n_row_A * test.m_col_B) :
    transpose test.n_row_A test.m_col_A test.A.flatten A_tr0 = some test.A_tr_ref.flatten ∧
    right_multiply test.m_col_A test.n_row_A test.A_tr_ref.flatten test.x mul0
      = some test.mul_ref ∧
    multiply test.n_row_A test.m_col_A test.m_col_B test.A.flatten test.B.flatten AB0
      = some test.AB_ref.flatten ∧
    rd2 test.A_tr_ref 0 2 = none ∧
    test.main A_tr0 mul0 AB0 = none := by
  have ht : transpose test.n_row_A test.m_col_A test.A.flatten A_tr0
      = some [1, 4, 2, 5, 3, 6] := by
    rw [transpose_indep _ _ _ A_tr0 (List.replicate 6 0) (by decide) h1 (by decide)]
    decide
  have hr : right_multiply test.m_col_A test.n_row_A [1, 4, 2, 5, 3, 6] test.x mul0
      = some [-3, -3, -3] := by
    rw [right_multiply_indep _ _ _ _ mul0 (List.replicate 3 0) (by decide) (by decide) h2
      (by decide)]
    decide
  have hm : multiply test.n_row_A test.m_col_A test.m_col_B test.A.flatten test.B.flatten AB0
      = some [2, -5, 18, 5, -8, 45] := by
    rw [multiply_indep _ _ _ _ _ AB0 (List.replicate 6 0) h3 (by decide)]
    decide
  refine ⟨ht, hr, hm, by decide, ?_⟩
  simp only [test.main, ht, hr, hm, Option.some_bind]
  decide

/-- The harness started from zeroed locals. -/
theorem C11_test_main_reads_out_of_range_witness :
    transpose test.n_row_A test.m_col_A test.A.flatten [0, 0, 0, 0, 0, 0]
      = some test.A_tr_ref.flatten ∧
    right_multiply test.m_col_A test.n_row_A test.A_tr_ref.flatten test.x [0, 0, 0]
      = some test.mul_ref ∧
    multiply test.n_row_A test.m_col_A test.m_col_B test.A.flatten test.B.flatten
        [0, 0, 0, 0, 0, 0]
      = some test.AB_ref.flatten ∧
    rd2 test.A_tr_ref 0 2 = none ∧
    test.main [0, 0, 0, 0, 0, 0] [0, 0, 0] [0, 0, 0, 0, 0, 0] = none :=
  C11_test_main_reads_out_of_range [0, 0, 0, 0, 0, 0] [0, 0, 0] [0, 0, 0, 0, 0, 0]
    (by decide) (by decide) (by decide)

/-- C12: `dot_product` is commutative: for vectors `a` and `b` of length `n`,
`dot_product(a, b)` and `dot_product(b, a)` are the same value, the sum
`Σ_{k < n} a[k] * b[k]`. -/
theorem C12_dot_product_comm [CommRing R] (n : Nat) (a b : List R)
    (ha : a.length = n) (hb : b.length = n) :
    dot_product n a b = dot_product n b a ∧
    dot_product n a b = some (∑ k ∈ Finset.range n, a.getD k 0 * b.getD k 0) := by
  refine ⟨?_, by simp [dot_product, ha, hb]⟩
  simp only [dot_product, ha, hb, and_self, if_true]
  congr 1
  exact Finset.sum_congr rfl (fun k _ => mul_comm _ _)

/-- The vectors `[1,2,3]` and `[4,5,6]` in both orders. -/
theorem C12_dot_product_comm_witness :
    dot_product 3 ([1, 2, 3] : List Int) [4, 5, 6] = dot_product 3 [4, 5, 6] [1, 2, 3] ∧
    dot_product 3 ([1, 2, 3] : List Int) [4, 5, 6]
      = some (∑ k ∈ Finset.range 3,
          ([1, 2, 3] : List Int).getD k 0 * ([4, 5, 6] : List Int).getD k 0) :=
  C12_dot_product_comm 3 [1, 2, 3] [4, 5, 6] (by decide) (by decide)

/-- C13 (defect in the code): `multiply<2,2,1>` leaves its output buffer: at
`i = 1`, `j = 0` the accumulation addresses `mul[1 * M_COL_A + 0] = mul[2]`, and
`2` is not below `N_ROW_A * M_COL_B = 2`; with checked indexing the call fails. -/
theorem C13_multiply_writes_out_of_range :
    multiply 2 2 1 ([1, 1, 1, 1] : List Int) [1, 1] [0, 0] = none ∧
    ¬ (1 * 2 + 0 < 2 * 1) ∧
    rd ([0, 0] : List Int) (1 * 2 + 0) = none := by
  refine ⟨by decide, by decide, by decide⟩

/-- C14: when both column counts are `M`, `multiply<N_ROW_A, M, M>` succeeds (every
checked access is in range, the written index `i*M + j` being below `N_ROW_A * M`)
and `mul[i*M + j] = Σ_{k < M} A[i*M + k] * B[k*M + j]` for every `i < N_ROW_A`,
`j < M`. -/
theorem C14_multiply_equal_cols [CommRing R] (N_ROW_A M : Nat) (A B mul : List R)
    (hA : A.length = N_ROW_A * M) (hB : B.length = M * M)
    (hmul : mul.length = N_ROW_A * M) :
    ∃ out, multiply N_ROW_A M M A B mul = some out ∧ out.length = N_ROW_A * M ∧
      ∀ i j, i < N_ROW_A → j < M →
        i * M + j < N_ROW_A * M ∧
        rd out (i * M + j) =
          some (∑ k ∈ Finset.range M, A.getD (i * M + k) 0 * B.getD (k * M + j) 0) := by
  obtain ⟨out, hout, hH⟩ := multiply_spec N_ROW_A M A B mul hA hB hmul
  exact ⟨out, hout, hH.1, fun i j hi hj => ⟨idx_lt hi hj, hH.2 i j hi hj⟩⟩

/-- The 2-by-3 times 3-by-3 product of the test data. -/
theorem C14_multiply_equal_cols_witness :
    ∃ out, multiply 2 3 3 ([1, 2, 3, 4, 5, 6] : List Int) [1, 2, 3, -1, -2, 3, 1, -1, 3]
        [0, 0, 0, 0, 0, 0] = some out ∧ out.length = 2 * 3 ∧
      ∀ i j, i < 2 → j < 3 →
        i * 3 + j < 2 * 3 ∧
        rd out (i * 3 + j) =
          some (∑ k ∈ Finset.range 3,
            ([1, 2, 3, 4, 5, 6] : List Int).getD (i * 3 + k) 0 *
              ([1, 2, 3, -1, -2, 3, 1, -1, 3] : List Int).getD (k * 3 + j) 0) :=
  C14_multiply_equal_cols 2 3 [1, 2, 3, 4, 5, 6] [1, 2, 3, -1, -2, 3, 1, -1, 3]
    [0, 0, 0, 0, 0, 0] (by decide) (by decide) (by decide)

/-- C15: `transpose` overwrites its whole output: the written index `j*N_ROW + i`
is in range for every `i < N_ROW`, `j < M_COL`, the map `(i, j) ↦ j*N_ROW + i` is
injective on these pairs and reaches every index below `N_ROW * M_COL` (so each
slot is written exactly once), and the call succeeds with the same final `A_tr`
from any two initial contents of the output buffer. -/
theorem C15_transpose_overwrites_output (N_ROW M_COL : Nat) (A t1 t2 : List R)
    (hA : A.length = N_ROW * M_COL) (h1 : t1.length = N_ROW * M_COL)
    (h2 : t2.length = N_ROW * M_COL) :
    (∀ i j, i < N_ROW → j < M_COL → j * N_ROW + i < N_ROW * M_COL) ∧
    (∀ i j i' j', i < N_ROW → j < M_COL → i' < N_ROW → j' < M_COL →
      j * N_ROW + i = j' * N_ROW + i' → i = i' ∧ j = j') ∧
    (∀ idx, idx < N_ROW * M_COL → ∃ i j, i < N_ROW ∧ j < M_COL ∧ j * N_ROW + i = idx) ∧
    ∃ out, transpose N_ROW M_COL A t1 = some out ∧ transpose N_ROW M_COL A t2 = some out ∧
      out.length = N_ROW * M_COL := by
  refine ⟨?_, ?_, ?_, ?_⟩
  · intro i j hi hj
    rw [Nat.mul_comm N_ROW M_COL]
    exact idx_lt hj hi
  · intro i j i' j' hi _ hi' _ e
    obtain ⟨e1, e2⟩ := idx_inj hi hi' e
    exact ⟨e2, e1⟩
  · intro idx hidx
    have hN : 0 < N_ROW := by
      rcases Nat.eq_zero_or_pos N_ROW with h0 | h0
      · subst h0; simp at hidx
      · exact h0
    refine ⟨idx % N_ROW, idx / N_ROW, Nat.mod_lt idx hN,
      (Nat.div_lt_iff_lt_mul hN).mpr (by rw [Nat.mul_comm]; exact hidx), ?_⟩
    rw [Nat.mul_comm]
    exact Nat.div_add_mod idx N_ROW
  · obtain ⟨out, hout, hlen, _⟩ := transpose_spec N_ROW M_COL A t1 hA h1
    exact ⟨out, hout, by rw [← transpose_indep N_ROW M_COL A t1 t2 hA h1 h2, hout], hlen⟩

/-- The 2-by-3 transpose from two different initial outputs. -/
theorem C15_transpose_overwrites_output_witness :
    (∀ i j, i < 2 → j < 3 → j * 2 + i < 2 * 3) ∧
    (∀ i j i' j', i < 2 → j < 3 → i' < 2 → j' < 3 →
      j * 2 + i = j' * 2 + i' → i = i' ∧ j = j') ∧
    (∀ idx, idx < 2 * 3 → ∃ i j, i < 2 ∧ j < 3 ∧ j * 2 + i = idx) ∧
    ∃ out, transpose 2 3 ([1, 2, 3, 4, 5, 6] : List Int) [0, 0, 0, 0, 0, 0] = some out ∧
      transpose 2 3 ([1, 2, 3, 4, 5, 6] : List Int) [9, 8, 7, 6, 5, 4] = some out ∧
      out.length = 2 * 3 :=
  C15_transpose_overwrites_output 2 3 [1, 2, 3, 4, 5, 6] [0, 0, 0, 0, 0, 0]
    [9, 8, 7, 6, 5, 4] (by decide) (by decide) (by decide)

/-- C16 (defect in the code): for the 2-by-2 matrix `A = [[1,2],[3,4]]` and
`x = [1,1]`, `right_multiply<2,2>` gives `[3,7]`, while `multiply<2,2,1>(A, x, .)`
addresses `mul[1 * M_COL_A + 0] = mul[2]` in its 2-element output and, with
checked indexing, fails: the two do not agree. -/
theorem C16_right_multiply_vs_multiply_wrong :
    right_multiply 2 2 ([1, 2, 3, 4] : List Int) [1, 1] [0, 0] = some [3, 7] ∧
    multiply 2 2 1 ([1, 2, 3, 4] : List Int) [1, 1] [0, 0] = none := by
  refine ⟨by decide, by decide⟩

end matrix_op
